import Mathlib

/-! ogen-ginwrap: route derivation and rendering.

A shallow embedding of `main.go`.  A Go string is modelled as the list of its
code points (`Str`).  The program inspects only the ASCII bytes `/`, `{` and
`}` of a path, and in UTF-8 an ASCII byte never occurs inside the encoding of
another code point, so splitting and indexing by code point agree with the
byte operations of the source on every string a YAML or JSON decoder returns.
-/

namespace OgenGinwrap

/-- Go `string`, as the list of its code points. -/
abbrev Str := List Char

/-! ## Go runtime operations used by `convertPathToGin` -/

/-- Go `s[i]`: the element at index `i`; `none` stands for the run-time panic
"index out of range". -/
def index (s : Str) (i : Nat) : Option Char :=
  if i < s.length then s.get? i else none

/-- Go `s[lo:hi]`: `none` stands for the run-time panic "slice bounds out of
range", raised unless `lo ≤ hi ≤ len(s)`. -/
def slice (s : Str) (lo hi : Nat) : Option Str :=
  if lo ≤ hi ∧ hi ≤ s.length then some ((s.take hi).drop lo) else none

/-- Go `strings.Split(s, "/")`: the substrings between the separators; a
string without separator (the empty string included) gives one substring. -/
def splitSlash : Str → List Str
  | [] => [[]]
  | c :: cs =>
    if c = '/' then [] :: splitSlash cs
    else
      match splitSlash cs with
      | [] => [[c]]
      | p :: ps => (c :: p) :: ps

/-- Go `strings.Join(parts, "/")`. -/
def joinSlash : List Str → Str
  | [] => []
  | [p] => p
  | p :: q :: ps => p ++ '/' :: joinSlash (q :: ps)

/-! ## `convertPathToGin` (main.go:30-41) -/

/-- One iteration of the loop body of `convertPathToGin`: the value of
`parts[i]` after the iteration, given `part`.  The subtraction `len(part)-1`
is on Go `int`; it is only evaluated when `len(part) ≠ 0`. -/
def convertPart (part : Str) : Option Str :=
  if part.length = 0 then some part
  else do
    let first ← index part 0
    if first = '\x7b' then
      let last ← index part (part.length - 1)
      if last = '\x7d' then
        let name ← slice part 1 (part.length - 1)
        some (':' :: name)
      else some part
    else some part

/-- The `for i, part := range parts` loop: every element is replaced in place;
a panic in one iteration aborts the loop. -/
def convertParts : List Str → Option (List Str)
  | [] => some []
  | part :: rest => do
    let p ← convertPart part
    let ps ← convertParts rest
    some (p :: ps)

/-- The function `convertPathToGin`; `none` stands for a run-time panic. -/
def convertPathToGin (path : Str) : Option Str := do
  let parts ← convertParts (splitSlash path)
  some (joinSlash parts)

/-! ## Method recognition and route derivation (main.go:105-133) -/

/-- Go `unicode.ToLower` on one code point.  ASCII capitals move by 32.  Outside
ASCII, Go's case tables (`unicode.CaseRanges`, the simple case mappings of the
Unicode character database) send exactly two code points to an ASCII letter:
U+0130 (capital I with dot above, lower-case delta -199) to `i` and U+212A
(Kelvin sign, lower-case delta -8383) to `k`.
Every other code point outside ASCII has a lower case outside ASCII; the model
leaves it in place, which gives the same answer to every comparison with an
ASCII string. -/
def toLowerRune (c : Char) : Char :=
  if 65 ≤ c.toNat ∧ c.toNat ≤ 90 then Char.ofNat (c.toNat + 32)
  else if c.toNat = 0x130 then 'i'
  else if c.toNat = 0x212A then 'k'
  else c

/-- Go `unicode.ToUpper` on one code point.  ASCII small letters move by 32.
Outside ASCII, Go's case tables send exactly two code points to an ASCII
letter: U+0131 (dotless i) to `I` and U+017F (long s) to `S`.  Every other
code point outside ASCII has an upper case outside ASCII; the model leaves it
in place. -/
def toUpperRune (c : Char) : Char :=
  if 97 ≤ c.toNat ∧ c.toNat ≤ 122 then Char.ofNat (c.toNat - 32)
  else if c.toNat = 0x131 then 'I'
  else if c.toNat = 0x17F then 'S'
  else c

/-- Go `strings.ToLower`. -/
def toLower (s : Str) : Str := s.map toLowerRune

/-- Go `strings.ToUpper`. -/
def toUpper (s : Str) : Str := s.map toUpperRune

/-- The keys of the map literal `validMethods`; every one has the value `true`. -/
def validMethodKeys : List Str :=
  ["get".toList, "post".toList, "put".toList, "delete".toList, "patch".toList,
   "head".toList, "options".toList, "trace".toList]

/-- The lookup `validMethods[k]`: a key that is absent reads as `false`. -/
def validMethods (k : Str) : Bool := decide (k ∈ validMethodKeys)

/-- The type `Route`. -/
structure Route where
  Path : Str
  GinPath : Str
  Methods : List Str
  deriving DecidableEq, Repr

/-- The field `OpenAPISpec.Paths` as the loops of `main` see it: the path keys
in the order `range` yields them, each with the keys of its path item in the
order `range` yields those.  The values of a path item are never read. -/
abbrev Paths := List (Str × List Str)

/-- The inner loop `for method := range pathItem`, from `methods := []string{}`. -/
def collectMethods (pathItem : List Str) : List Str :=
  pathItem.foldl
    (fun methods method =>
      let methodLower := toLower method
      if validMethods methodLower then methods ++ [toUpper methodLower] else methods)
    []

/-- One iteration of the outer loop `for path, pathItem := range spec.Paths`. -/
def addRoute (routes : List Route) (path : Str) (pathItem : List Str) :
    Option (List Route) :=
  let methods := collectMethods pathItem
  if methods.length = 0 then some routes
  else do
    let ginPath ← convertPathToGin path
    some (routes ++ [Route.mk path ginPath methods])

/-- The outer loop of `main`, from `routes := []Route{}`; `none` stands for a
run-time panic. -/
def deriveRoutes (paths : Paths) : Option (List Route) :=
  paths.foldlM (fun routes e => addRoute routes e.1 e.2) []

/-! ## The template `tpl` and its execution (main.go:43-69, 135-140) -/

/-- The type `TemplateData`. -/
structure TemplateData where
  PackageName : Str
  Routes : List Route
  deriving DecidableEq, Repr

/-- What a left trim marker (an action opening with two braces and a minus
sign) does to the text before it: the trailing white space (space, tab,
carriage return, newline) is removed. -/
def trimSpaceRight (s : Str) : Str :=
  (s.reverse.dropWhile (fun c => c = ' ' ∨ c = '\t' ∨ c = '\r' ∨ c = '\n')).reverse

/-- A node in the body of `range .Methods`: literal text, the action that
prints the dot (the current method) and the action that prints `$path`. -/
inductive MethodNode where
  | text (s : Str)
  | dot
  | pathVar
  deriving DecidableEq, Repr

/-- A node in the body of `range .Routes`: literal text, the declaration
`$path := .GinPath`, and the inner `range .Methods` with its body. -/
inductive RouteNode where
  | text (s : Str)
  | setPath
  | rangeMethods (body : List MethodNode)
  deriving Repr

/-- A node at the top level of the template: literal text, the action that
prints `.PackageName`, and `range .Routes` with its body. -/
inductive TopNode where
  | text (s : Str)
  | packageName
  | rangeRoutes (body : List RouteNode)
  deriving Repr

/-- The text of `tpl` between the action printing the package name and
`range .Routes`, as written in the source (before trimming). -/
def tplHeader : Str :=
  ("\n\nimport (\n\t\"net/http\"\n\t\"strings\"\n\n\t\"github.com/gin-gonic/gin\"\n)\n\n" ++
   "// RegisterRoutes registers routes from OpenAPI spec into gin.Engine\n" ++
   "// basePath add base path to the gin router. Your ogenHandler must also have prefix to match gin router.\n" ++
   "func RegisterRoutes(r *gin.Engine, ogenHandler http.Handler, basePath string) \x7b\n" ++
   "\tif basePath != \"\" \x7b\n" ++
   "\t\tif basePath[0] != \x27/\x27 \x7b\n" ++
   "\t\t\tbasePath = \"/\" + basePath\n" ++
   "\t\t\x7d\n" ++
   "\t\tbasePath = strings.TrimRight(basePath, \"/\")\n" ++
   "\t\x7d\n\n").toList

/-- The constant `tpl`, parsed.  Each of the five actions that open with a
left trim marker trims the text written before it. -/
def tpl : List TopNode :=
  [ TopNode.text "package ".toList,
    TopNode.packageName,
    TopNode.text (trimSpaceRight tplHeader),
    TopNode.rangeRoutes
      [ RouteNode.text (trimSpaceRight "\n\t".toList),
        RouteNode.setPath,
        RouteNode.text (trimSpaceRight "\n\t".toList),
        RouteNode.rangeMethods
          [ MethodNode.text "\n\tr.".toList,
            MethodNode.dot,
            MethodNode.text "(basePath + \"".toList,
            MethodNode.pathVar,
            MethodNode.text (trimSpaceRight "\", gin.WrapH(ogenHandler))\n\t".toList) ],
        RouteNode.text (trimSpaceRight "\n".toList) ],
    TopNode.text "\n\x7d\n".toList ]

/-- Execution of the body of `range .Methods` for the method `dot`, with the
variable `$path` holding `path`. -/
def execMethodNodes (path dot : Str) : List MethodNode → Str
  | [] => []
  | MethodNode.text s :: rest => s ++ execMethodNodes path dot rest
  | MethodNode.dot :: rest => dot ++ execMethodNodes path dot rest
  | MethodNode.pathVar :: rest => path ++ execMethodNodes path dot rest

/-- Execution of the body of `range .Routes` for the route `r`; `var` is the
value of `$path`, `none` before its declaration.  `none` as a result stands
for an execution error (a use of `$path` before its declaration). -/
def execRouteNodes (r : Route) : Option Str → List RouteNode → Option Str
  | _, [] => some []
  | var, RouteNode.text s :: rest => do
    let out ← execRouteNodes r var rest
    some (s ++ out)
  | _, RouteNode.setPath :: rest => execRouteNodes r (some r.GinPath) rest
  | var, RouteNode.rangeMethods body :: rest => do
    let path ← var
    let out ← execRouteNodes r var rest
    some ((r.Methods.map (fun m => execMethodNodes path m body)).flatten ++ out)

/-- The iteration `range .Routes`: the body is executed once per route, in
order. -/
def execRoutes (body : List RouteNode) : List Route → Option Str
  | [] => some []
  | r :: rs => do
    let out ← execRouteNodes r none body
    let outs ← execRoutes body rs
    some (out ++ outs)

/-- Execution of the top level of a template on `data`. -/
def execTopNodes (data : TemplateData) : List TopNode → Option Str
  | [] => some []
  | TopNode.text s :: rest => do
    let out ← execTopNodes data rest
    some (s ++ out)
  | TopNode.packageName :: rest => do
    let out ← execTopNodes data rest
    some (data.PackageName ++ out)
  | TopNode.rangeRoutes body :: rest => do
    let mid ← execRoutes body data.Routes
    let out ← execTopNodes data rest
    some (mid ++ out)

/-- The text `t.Execute(out, tmplData)` writes when no write fails. -/
def render (data : TemplateData) : Option Str := execTopNodes data tpl

/-! ## The generated `RegisterRoutes`: base-path normalisation (main.go:54-60) -/

/-- Go `strings.TrimRight(s, "/")`. -/
def trimRightSlash (s : Str) : Str :=
  (s.reverse.dropWhile (fun c => c = '/')).reverse

/-- The first statement of the generated `RegisterRoutes`: the value of
`basePath` after it; `none` stands for a run-time panic. -/
def normaliseBasePath (basePath : Str) : Option Str :=
  if basePath ≠ [] then do
    let first ← index basePath 0
    let basePath := if first ≠ '/' then '/' :: basePath else basePath
    some (trimRightSlash basePath)
  else some basePath

/-! ## `main` (main.go:71-160) -/

/-- Go `filepath.Ext`: the suffix of `path` from the last dot of its last
element; empty when that element has no dot.  `extScan rev acc` is the loop
that walks `path` from its end: `rev` is what is left to visit, last
character first, and `acc` what was visited. -/
def extScan : List Char → Str → Str
  | [], _ => []
  | c :: rev, acc =>
    if c = '/' then []
    else if c = '.' then c :: acc
    else extScan rev (c :: acc)

/-- Go `filepath.Ext(path)`, with `/` as the path separator. -/
def filepathExt (path : Str) : Str := extScan path.reverse []

/-- The stage at which `main` stops with `log.Fatal`, `log.Fatalf` or a
run-time panic. -/
inductive Failure where
  | usage
  | read
  | unsupportedExt (ext : Str)
  | parse
  | crash
  | mkdir
  | create
  | execute
  deriving DecidableEq, Repr

/-- A call `main` issues on the output destination. -/
inductive Effect where
  | mkdirAll (forFile : Str)
  | create (file : Str)
  | writeFile (file : Str) (text : Str)
  | writeStdout (text : Str)
  deriving DecidableEq, Repr

/-- What `main` reads from outside: the three flags, the file system's answer
to `os.ReadFile`, the two decoders (`none` is a decoding error), whether
`os.MkdirAll` and `os.Create` succeed, and how many characters the output
accepts before a write fails (`none`: every write succeeds). -/
structure Env where
  inputFile : Str
  outputFile : Str
  packageName : Str
  readFile : Str → Option Str
  yamlUnmarshal : Str → Option Paths
  jsonUnmarshal : Str → Option Paths
  mkdirAllOk : Bool
  createOk : Bool
  writeLimit : Option Nat

/-- The `switch ext` of `main` with the error check that follows it. -/
def unmarshal (env : Env) (ext data : Str) : Except Failure Paths :=
  if ext = ".yaml".toList ∨ ext = ".yml".toList then
    match env.yamlUnmarshal data with
    | some paths => Except.ok paths
    | none => Except.error Failure.parse
  else if ext = ".json".toList then
    match env.jsonUnmarshal data with
    | some paths => Except.ok paths
    | none => Except.error Failure.parse
  else Except.error (Failure.unsupportedExt ext)

/-- The call `t.Execute(out, tmplData)` and its error check; `emit` is the
write on the chosen destination. -/
def execute (env : Env) (emit : Str → Effect) (tmplData : TemplateData) :
    Except Failure Unit × List Effect :=
  match render tmplData with
  | none => (Except.error Failure.execute, [])
  | some text =>
    match env.writeLimit with
    | none => (Except.ok (), [emit text])
    | some n =>
      if n < text.length then (Except.error Failure.execute, [emit (text.take n)])
      else (Except.ok (), [emit text])

/-- The function `main`: how the run ends and the calls issued on the output
destination, in order. -/
def run (env : Env) : Except Failure Unit × List Effect :=
  if env.inputFile = [] then (Except.error Failure.usage, [])
  else
    match env.readFile env.inputFile with
    | none => (Except.error Failure.read, [])
    | some data =>
      let ext := toLower (filepathExt env.inputFile)
      match unmarshal env ext data with
      | Except.error f => (Except.error f, [])
      | Except.ok paths =>
        match deriveRoutes paths with
        | none => (Except.error Failure.crash, [])
        | some routes =>
          let tmplData := TemplateData.mk env.packageName routes
          if env.outputFile ≠ [] then
            if env.mkdirAllOk = false then
              (Except.error Failure.mkdir, [Effect.mkdirAll env.outputFile])
            else if env.createOk = false then
              (Except.error Failure.create,
                [Effect.mkdirAll env.outputFile, Effect.create env.outputFile])
            else
              let res := execute env (Effect.writeFile env.outputFile) tmplData
              (res.1, Effect.mkdirAll env.outputFile :: Effect.create env.outputFile :: res.2)
          else execute env Effect.writeStdout tmplData

/-! ## Definitions used to state the properties -/

/-- What the loop body of `convertPathToGin` is expected to compute: a part
whose first character is an opening brace and whose last character is a
closing brace loses both and gets a colon in front; any other part stays. -/
def rewritePart (s : Str) : Str :=
  if s.head? = some '\x7b' ∧ s.getLast? = some '\x7d' then ':' :: s.tail.dropLast else s

/-- The translated path as a total function: the parts of the path, each
rewritten, joined again. -/
def ginPathOf (path : Str) : Str := joinSlash ((splitSlash path).map rewritePart)

/-- The methods a path item is expected to give: the lower-cased keys that are
in `validMethods`, upper-cased, in the order of the keys. -/
def methodsOf (pathItem : List Str) : List Str :=
  ((pathItem.map toLower).filter validMethods).map toUpper

/-- The route one entry of `Paths` is expected to give, if any. -/
def routeOf (e : Str × List Str) : Option Route :=
  if methodsOf e.2 = [] then none else some (Route.mk e.1 (ginPathOf e.1) (methodsOf e.2))

/-- The registrations of a route list: one pair (method, translated path) per
route and method, in route order and, within a route, in method order. -/
def registrations (routes : List Route) : List (Str × Str) :=
  routes.flatMap (fun r => r.Methods.map (fun m => (m, r.GinPath)))

/-- Two enumerations of one input structure: the entries of one correspond, up
to a reordering, to the entries of the other, with the same path key and a
reordering of the method keys. -/
def SameInput (ps qs : Paths) : Prop :=
  ∃ ps', List.Forall₂ (fun a b => a.1 = b.1 ∧ a.2.Perm b.2) ps ps' ∧ ps'.Perm qs

/-- Two route lists that agree up to reordering: the routes of one correspond,
up to a reordering, to the routes of the other, with the same path, the same
translated path and a reordering of the methods. -/
def SameRoutes (rs ss : List Route) : Prop :=
  ∃ rs', List.Forall₂
      (fun a b => a.Path = b.Path ∧ a.GinPath = b.GinPath ∧ a.Methods.Perm b.Methods) rs rs' ∧
    rs'.Perm ss

/-- The registration statement written for one registration: a line break, a
tab and the call of the router method on `basePath` followed by the quoted
translated path. -/
def registrationText (reg : Str × Str) : Str :=
  "\n\tr.".toList ++ reg.1 ++ "(basePath + \"".toList ++ reg.2 ++
    "\", gin.WrapH(ogenHandler))".toList

/-- The generated text between the package name and the first registration:
from the imports to the closing brace of the base-path normalisation block. -/
def prologue : Str :=
  ("\n\nimport (\n\t\"net/http\"\n\t\"strings\"\n\n\t\"github.com/gin-gonic/gin\"\n)\n\n" ++
   "// RegisterRoutes registers routes from OpenAPI spec into gin.Engine\n" ++
   "// basePath add base path to the gin router. Your ogenHandler must also have prefix to match gin router.\n" ++
   "func RegisterRoutes(r *gin.Engine, ogenHandler http.Handler, basePath string) \x7b\n" ++
   "\tif basePath != \"\" \x7b\n" ++
   "\t\tif basePath[0] != \x27/\x27 \x7b\n" ++
   "\t\t\tbasePath = \"/\" + basePath\n" ++
   "\t\t\x7d\n" ++
   "\t\tbasePath = strings.TrimRight(basePath, \"/\")\n" ++
   "\t\x7d").toList

/-- A run with the flags `-file api.json -out out.go`: the input is read and
decoded (to an empty path map), the output file is created, and the output
accepts 12 characters before a write fails. -/
def envWriteFails : Env :=
  Env.mk "api.json".toList "out.go".toList "main".toList (fun _ => some "\x7b\x7d".toList)
    (fun _ => none) (fun _ => some []) true true (some 12)

/-- A run with the flags `-file api.txt -out out.go`: the input is read, and
its extension is none of the three supported ones. -/
def envTxt : Env :=
  Env.mk "api.txt".toList "out.go".toList "main".toList (fun _ => some [])
    (fun _ => some []) (fun _ => some []) true true none

/-- The eight method names of the specification, in lower case. -/
def lowerMethods : List Str :=
  ["get".toList, "post".toList, "put".toList, "delete".toList, "patch".toList,
   "head".toList, "options".toList, "trace".toList]

/-- The eight method names in upper case. -/
def upperMethods : List Str :=
  ["GET".toList, "POST".toList, "PUT".toList, "DELETE".toList, "PATCH".toList,
   "HEAD".toList, "OPTIONS".toList, "TRACE".toList]

/-! ## Lemmas on `convertPathToGin` -/

theorem index_zero_cons (c : Char) (t : Str) : index (c :: t) 0 = some c := by
  simp [index]

theorem index_last_cons (c : Char) (t : Str) :
    index (c :: t) ((c :: t).length - 1) = (c :: t).getLast? := by
  simp only [index, List.length_cons, Nat.add_sub_cancel, Nat.lt_succ_self, if_true]
  rw [List.getLast?_eq_getElem?]
  simp

theorem slice_inner (c : Char) (t : Str) (ht : t ≠ []) :
    slice (c :: t) 1 ((c :: t).length - 1) = some t.dropLast := by
  cases t with
  | nil => exact absurd rfl ht
  | cons d u =>
    simp [slice, List.dropLast_eq_take]

theorem convertPart_eq (s : Str) : convertPart s = some (rewritePart s) := by
  cases s with
  | nil => simp [convertPart, rewritePart]
  | cons c t =>
    unfold convertPart rewritePart
    rw [index_zero_cons, index_last_cons]
    by_cases hc : c = '\x7b'
    · subst hc
      cases hl : ('\x7b' :: t).getLast? with
      | none => simp at hl
      | some l =>
        by_cases hl2 : l = '\x7d'
        · subst hl2
          have ht : t ≠ [] := by
            rintro rfl
            simp at hl
          rw [slice_inner _ _ ht]
          simp [hl]
        · simp [hl2]
    · simp [hc]

theorem convertParts_eq (l : List Str) : convertParts l = some (l.map rewritePart) := by
  induction l with
  | nil => rfl
  | cons s rest ih => simp [convertParts, convertPart_eq, ih]

theorem convertPathToGin_eq (p : Str) :
    convertPathToGin p = some (joinSlash ((splitSlash p).map rewritePart)) := by
  simp [convertPathToGin, convertParts_eq]

theorem splitSlash_ne_nil (p : Str) : splitSlash p ≠ [] := by
  cases p with
  | nil => simp [splitSlash]
  | cons c cs =>
    unfold splitSlash
    split
    · simp
    · split <;> simp

theorem splitSlash_no_slash (p : Str) : ∀ s ∈ splitSlash p, '/' ∉ s := by
  induction p with
  | nil => simp [splitSlash]
  | cons c cs ih =>
    unfold splitSlash
    split
    · intro s hs
      rcases List.mem_cons.mp hs with h | h
      · subst h; simp
      · exact ih s h
    · rename_i hc
      split
      · intro s hs
        simp only [List.mem_singleton] at hs
        subst hs
        simpa using Ne.symm hc
      · rename_i q qs hq
        intro s hs
        rw [hq] at ih
        rcases List.mem_cons.mp hs with h | h
        · subst h
          have := ih q (List.mem_cons_self _ _)
          simp only [List.mem_cons, not_or]
          exact ⟨Ne.symm hc, this⟩
        · exact ih s (List.mem_cons_of_mem _ h)

theorem splitSlash_append_slash (s : Str) (hs : '/' ∉ s) (rest : Str) :
    splitSlash (s ++ '/' :: rest) = s :: splitSlash rest := by
  induction s with
  | nil => simp [splitSlash]
  | cons c cs ih =>
    have hc : c ≠ '/' := fun h => hs (by simp [h])
    have hcs : '/' ∉ cs := fun h => hs (List.mem_cons_of_mem _ h)
    simp only [List.cons_append]
    rw [splitSlash, if_neg hc, ih hcs]

theorem splitSlash_of_no_slash (s : Str) (hs : '/' ∉ s) : splitSlash s = [s] := by
  induction s with
  | nil => rfl
  | cons c cs ih =>
    have hc : c ≠ '/' := fun h => hs (by simp [h])
    have hcs : '/' ∉ cs := fun h => hs (List.mem_cons_of_mem _ h)
    rw [splitSlash, if_neg hc, ih hcs]

theorem splitSlash_joinSlash (l : List Str) (hne : l ≠ []) (hl : ∀ s ∈ l, '/' ∉ s) :
    splitSlash (joinSlash l) = l := by
  induction l with
  | nil => exact absurd rfl hne
  | cons s rest ih =>
    cases rest with
    | nil => simpa [joinSlash] using splitSlash_of_no_slash s (hl s (List.mem_cons_self _ _))
    | cons q qs =>
      rw [joinSlash, splitSlash_append_slash s (hl s (List.mem_cons_self _ _)),
        ih (by simp) (fun x hx => hl x (List.mem_cons_of_mem _ hx))]

theorem rewritePart_no_slash (s : Str) (hs : '/' ∉ s) : '/' ∉ rewritePart s := by
  unfold rewritePart
  split
  · intro h
    rcases List.mem_cons.mp h with h | h
    · exact absurd h (by decide)
    · exact hs (List.mem_of_mem_tail (List.dropLast_subset _ h))
  · exact hs

theorem rewritePart_idem (s : Str) : rewritePart (rewritePart s) = rewritePart s := by
  by_cases h : s.head? = some '\x7b' ∧ s.getLast? = some '\x7d'
  · have h1 : rewritePart s = ':' :: s.tail.dropLast := by simp [rewritePart, h]
    rw [h1]
    simp [rewritePart]
  · have h1 : rewritePart s = s := by simp [rewritePart, h]
    rw [h1, h1]

theorem rewritePart_form (x : Str) : rewritePart ('\x7b' :: (x ++ ['\x7d'])) = ':' :: x := by
  have h : ('\x7b' :: (x ++ ['\x7d'])).getLast? = some '\x7d' := by
    rw [← List.cons_append, List.getLast?_concat]
  simp [rewritePart, h]

theorem form_of_match (s : Str) (h : s.head? = some '\x7b' ∧ s.getLast? = some '\x7d') :
    s = '\x7b' :: (s.tail.dropLast ++ ['\x7d']) := by
  cases s with
  | nil => simp at h
  | cons c t =>
    obtain ⟨h1, h2⟩ := h
    simp only [List.head?_cons, Option.some.injEq] at h1
    subst h1
    have ht : t ≠ [] := by
      rintro rfl
      simp at h2
    have h3 : t.getLast? = some '\x7d' := by
      cases t with
      | nil => exact absurd rfl ht
      | cons d u => simpa using h2
    have h4 := List.dropLast_append_getLast? _ (Option.mem_def.mpr h3)
    simp [h4]

theorem form_iff_match (s : Str) :
    (∃ x, s = '\x7b' :: (x ++ ['\x7d'])) ↔
      (s ≠ [] ∧ s.head? = some '\x7b' ∧ s.getLast? = some '\x7d') := by
  constructor
  · rintro ⟨x, rfl⟩
    refine ⟨by simp, by simp, ?_⟩
    rw [← List.cons_append, List.getLast?_concat]
  · rintro ⟨_, h⟩
    exact ⟨_, form_of_match s h⟩

theorem rewritePart_of_not_form (s : Str) (h : ∀ x, s ≠ '\x7b' :: (x ++ ['\x7d'])) :
    rewritePart s = s := by
  unfold rewritePart
  split
  · rename_i hm
    exact absurd (form_of_match s hm) (h _)
  · rfl

/-! ## Path translation: claims C1, C8, C10 -/

/-- C1: for every path `p`, `convertPathToGin p` returns a string `r` whose
split on the slash has as many segments as the split of `p`; at every index, a
segment of the form opening brace, `x`, closing brace (which is the same as
being non-empty, beginning with an opening brace and ending with a closing
brace) gives the segment colon, `x`, and any other segment (the empty ones
included) is unchanged. -/
theorem convertPathToGin_segments (p : Str) :
    ∃ r, convertPathToGin p = some r ∧
      (splitSlash r).length = (splitSlash p).length ∧
      ∀ (i : Nat) (s : Str), (splitSlash p)[i]? = some s →
        ((s ≠ [] ∧ s.head? = some '\x7b' ∧ s.getLast? = some '\x7d') ↔
          ∃ x, s = '\x7b' :: (x ++ ['\x7d'])) ∧
        (∀ x, s = '\x7b' :: (x ++ ['\x7d']) → (splitSlash r)[i]? = some (':' :: x)) ∧
        ((∀ x, s ≠ '\x7b' :: (x ++ ['\x7d'])) → (splitSlash r)[i]? = some s) := by
  refine ⟨_, convertPathToGin_eq p, ?_⟩
  have hsplit : splitSlash (joinSlash ((splitSlash p).map rewritePart)) =
      (splitSlash p).map rewritePart := by
    apply splitSlash_joinSlash
    · simpa using splitSlash_ne_nil p
    · intro s hs
      obtain ⟨t, ht, rfl⟩ := List.mem_map.mp hs
      exact rewritePart_no_slash t (splitSlash_no_slash p t ht)
  rw [hsplit]
  refine ⟨by simp, ?_⟩
  intro i s hs
  refine ⟨(form_iff_match s).symm, ?_, ?_⟩
  · rintro x rfl
    simp [hs, rewritePart_form]
  · intro h
    simp [hs, rewritePart_of_not_form s h]

/-- C1 at the path `/pets/{petId}//`. -/
theorem convertPathToGin_segments_witness :
    ∃ r, convertPathToGin "/pets/\x7bpetId\x7d//".toList = some r ∧
      (splitSlash r).length = (splitSlash "/pets/\x7bpetId\x7d//".toList).length ∧
      ∀ (i : Nat) (s : Str), (splitSlash "/pets/\x7bpetId\x7d//".toList)[i]? = some s →
        ((s ≠ [] ∧ s.head? = some '\x7b' ∧ s.getLast? = some '\x7d') ↔
          ∃ x, s = '\x7b' :: (x ++ ['\x7d'])) ∧
        (∀ x, s = '\x7b' :: (x ++ ['\x7d']) → (splitSlash r)[i]? = some (':' :: x)) ∧
        ((∀ x, s ≠ '\x7b' :: (x ++ ['\x7d'])) → (splitSlash r)[i]? = some s) :=
  convertPathToGin_segments "/pets/\x7bpetId\x7d//".toList

/-- C8: `convertPathToGin` returns on every string, so no index and no slice
bound is out of range; in a part where both character tests succeed the
length is at least 2, so the bounds `1` and `len(part)-1` of the slice are in
order; a part of one character is unchanged and the part made of the two
braces becomes a single colon. -/
theorem convertPathToGin_total (p : Str) :
    (∃ r, convertPathToGin p = some r) ∧
      (∀ part : Str, index part 0 = some '\x7b' →
        index part (part.length - 1) = some '\x7d' →
          2 ≤ part.length ∧ ∃ name, slice part 1 (part.length - 1) = some name) ∧
      (∀ c : Char, convertPart [c] = some [c]) ∧
      convertPart ['\x7b', '\x7d'] = some [':'] ∧
      convertPathToGin [] = some [] ∧
      convertPathToGin "///".toList = some "///".toList ∧
      convertPathToGin "\x7b".toList = some "\x7b".toList ∧
      convertPathToGin "\x7d".toList = some "\x7d".toList ∧
      convertPathToGin "/a/\x7b/\x7d/\x7b\x7d".toList = some "/a/\x7b/\x7d/:".toList := by
  refine ⟨⟨_, convertPathToGin_eq p⟩, ?_, ?_, by decide, by decide, by decide, by decide,
    by decide, by decide⟩
  · intro part h0 h1
    cases part with
    | nil => simp [index] at h0
    | cons c t =>
      cases t with
      | nil =>
        simp only [index_zero_cons, Option.some.injEq] at h0
        subst h0
        simp [index] at h1
      | cons d u => exact ⟨by simp, _, slice_inner c (d :: u) (by simp)⟩
  · intro c
    rw [convertPart_eq]
    by_cases h : c = '\x7b'
    · subst h
      simp [rewritePart]
    · simp [rewritePart, h]

/-- C10: `convertPathToGin` is idempotent: applied to its own result it returns
that result again; the path `/a/{{id}}` becomes `/a/:{id}` and stays so. -/
theorem convertPathToGin_idempotent (p : Str) :
    (∃ r, convertPathToGin p = some r ∧ convertPathToGin r = some r) ∧
      (convertPathToGin p).bind convertPathToGin = convertPathToGin p ∧
      convertPathToGin "/a/\x7b\x7bid\x7d\x7d".toList = some "/a/:\x7bid\x7d".toList ∧
      convertPathToGin "/a/:\x7bid\x7d".toList = some "/a/:\x7bid\x7d".toList := by
  have hsplit : splitSlash (joinSlash ((splitSlash p).map rewritePart)) =
      (splitSlash p).map rewritePart := by
    apply splitSlash_joinSlash
    · simpa using splitSlash_ne_nil p
    · intro s hs
      obtain ⟨t, ht, rfl⟩ := List.mem_map.mp hs
      exact rewritePart_no_slash t (splitSlash_no_slash p t ht)
  have h2 : convertPathToGin (joinSlash ((splitSlash p).map rewritePart)) =
      some (joinSlash ((splitSlash p).map rewritePart)) := by
    rw [convertPathToGin_eq, hsplit, List.map_map]
    congr 2
    apply List.map_congr_left
    intro s _
    exact rewritePart_idem s
  refine ⟨⟨_, convertPathToGin_eq p, h2⟩, ?_, by decide, by decide⟩
  rw [convertPathToGin_eq p, Option.some_bind, h2]

/-! ## Lemmas on route derivation -/

theorem collectMethods_foldl (keys acc : List Str) :
    keys.foldl
      (fun methods method =>
        let methodLower := toLower method
        if validMethods methodLower then methods ++ [toUpper methodLower] else methods)
      acc = acc ++ methodsOf keys := by
  induction keys generalizing acc with
  | nil => simp [methodsOf]
  | cons k ks ih =>
    simp only [List.foldl_cons]
    rw [ih]
    by_cases hk : validMethods (toLower k) = true
    · simp [methodsOf, hk]
    · simp [methodsOf, hk]

theorem collectMethods_eq (keys : List Str) : collectMethods keys = methodsOf keys := by
  simpa [collectMethods] using collectMethods_foldl keys []

theorem addRoute_eq (routes : List Route) (e : Str × List Str) :
    addRoute routes e.1 e.2 = some (routes ++ (routeOf e).toList) := by
  unfold addRoute routeOf
  simp only [collectMethods_eq, convertPathToGin_eq, List.length_eq_zero]
  by_cases h : methodsOf e.2 = []
  · simp [h]
  · simp [h, ginPathOf]

theorem foldlM_addRoute (paths : Paths) (acc : List Route) :
    paths.foldlM (fun routes e => addRoute routes e.1 e.2) acc =
      some (acc ++ paths.filterMap routeOf) := by
  induction paths generalizing acc with
  | nil => simp
  | cons e es ih =>
    rw [List.foldlM_cons, addRoute_eq]
    simp only [Option.bind_eq_bind, Option.some_bind]
    rw [ih]
    cases h : routeOf e <;> simp [List.filterMap_cons, h]

theorem deriveRoutes_eq (paths : Paths) :
    deriveRoutes paths = some (paths.filterMap routeOf) := by
  simpa [deriveRoutes] using foldlM_addRoute paths []

theorem methodsOf_eq_nil_iff (keys : List Str) :
    methodsOf keys = [] ↔ ∀ k ∈ keys, validMethods (toLower k) = false := by
  simp [methodsOf, List.filter_eq_nil_iff]

theorem mem_methodsOf (keys : List Str) (m : Str) :
    m ∈ methodsOf keys ↔ ∃ k ∈ keys, validMethods (toLower k) = true ∧ m = toUpper (toLower k) := by
  simp only [methodsOf, List.mem_map, List.mem_filter]
  constructor
  · rintro ⟨l, ⟨⟨k, hk, rfl⟩, hv⟩, rfl⟩
    exact ⟨k, hk, hv, rfl⟩
  · rintro ⟨k, hk, hv, rfl⟩
    exact ⟨_, ⟨⟨k, hk, rfl⟩, hv⟩, rfl⟩

theorem toUpper_valid_mem (l : Str) (h : validMethods l = true) : toUpper l ∈ upperMethods := by
  have h1 : l ∈ validMethodKeys := by simpa [validMethods] using h
  have h2 : ∀ k ∈ validMethodKeys, toUpper k ∈ upperMethods := by decide
  exact h2 l h1

theorem toUpper_valid_inj (a b : Str) (ha : validMethods a = true) (hb : validMethods b = true)
    (h : toUpper a = toUpper b) : a = b := by
  have h1 : a ∈ validMethodKeys := by simpa [validMethods] using ha
  have h2 : b ∈ validMethodKeys := by simpa [validMethods] using hb
  have h3 : ∀ x ∈ validMethodKeys, ∀ y ∈ validMethodKeys, toUpper x = toUpper y → x = y := by
    decide
  exact h3 a h1 b h2 h

theorem toLowerRune_ascii (c : Char) (hc : c.toNat < 128) :
    toUpperRune (toLowerRune c) = toUpperRune c := by
  have h : ∀ n : Fin 128, toUpperRune (toLowerRune (Char.ofNat n.val)) =
      toUpperRune (Char.ofNat n.val) := by decide
  have := h ⟨c.toNat, hc⟩
  simpa using this

/-! ## Route derivation: claims C3, C4, C5 -/

/-- C3: route derivation returns a route list in which a path has a route if and
only if an entry for that path has a key whose lower-casing is one of get, post,
put, delete, patch, head, options, trace; every route has a non-empty methods
list; each of the eight names as the only key of a path gives a route; the
paths `/pets/{petId}` (keys `get`, `post`), `/x` (key `parameters`) and
`/health` (keys `summary`, `Get`) give the two routes shown; and the path whose
only key is `parameters` gives no route and no registration. -/
theorem deriveRoutes_route_iff (paths : Paths) :
    ∃ routes, deriveRoutes paths = some routes ∧
      (∀ path : Str, (∃ r ∈ routes, r.Path = path) ↔
        ∃ e ∈ paths, e.1 = path ∧ ∃ k ∈ e.2, toLower k ∈ lowerMethods) ∧
      (∀ r ∈ routes, r.Methods ≠ []) ∧
      (∀ n ∈ lowerMethods, deriveRoutes [("/x".toList, [n])] =
        some [Route.mk "/x".toList "/x".toList [toUpper n]]) ∧
      deriveRoutes [("/pets/\x7bpetId\x7d".toList, ["get".toList, "post".toList]),
          ("/x".toList, ["parameters".toList]),
          ("/health".toList, ["summary".toList, "Get".toList])] =
        some [Route.mk "/pets/\x7bpetId\x7d".toList "/pets/:petId".toList
            ["GET".toList, "POST".toList],
          Route.mk "/health".toList "/health".toList ["GET".toList]] ∧
      deriveRoutes [("/x".toList, ["parameters".toList])] = some [] ∧
      (deriveRoutes [("/x".toList, ["parameters".toList])]).map registrations = some [] := by
  have hv : ∀ l : Str, validMethods l = true ↔ l ∈ lowerMethods := by
    intro l
    simp [validMethods, validMethodKeys, lowerMethods]
  have hvf : ∀ l : Str, validMethods l = false ↔ l ∉ lowerMethods := by
    intro l
    rw [← hv, Bool.not_eq_true]
  refine ⟨_, deriveRoutes_eq paths, ?_, ?_, by decide, by decide, by decide, by decide⟩
  · intro path
    constructor
    · rintro ⟨r, hr, rfl⟩
      obtain ⟨e, he, hre⟩ := List.mem_filterMap.mp hr
      unfold routeOf at hre
      split at hre
      · exact absurd hre (by simp)
      · rename_i hne
        simp only [Option.some.injEq] at hre
        subst hre
        refine ⟨e, he, rfl, ?_⟩
        rw [methodsOf_eq_nil_iff] at hne
        push_neg at hne
        obtain ⟨k, hk, hk2⟩ := hne
        refine ⟨k, hk, ?_⟩
        rw [Ne, hvf, not_not] at hk2
        exact hk2
    · rintro ⟨e, he, rfl, k, hk, hk2⟩
      have hne : methodsOf e.2 ≠ [] := by
        rw [Ne, methodsOf_eq_nil_iff]
        push_neg
        refine ⟨k, hk, ?_⟩
        rw [Ne, hvf, not_not]
        exact hk2
      refine ⟨Route.mk e.1 (ginPathOf e.1) (methodsOf e.2), ?_, rfl⟩
      apply List.mem_filterMap.mpr
      exact ⟨e, he, by simp [routeOf, hne]⟩
  · intro r hr
    obtain ⟨e, _, hre⟩ := List.mem_filterMap.mp hr
    unfold routeOf at hre
    split at hre
    · exact absurd hre (by simp)
    · rename_i hne
      simp only [Option.some.injEq] at hre
      subst hre
      exact hne

/-- C4, as stated, fails: the key `optİons` (with U+0130) lower-cases to
`options`, so the method `OPTIONS` is emitted, and `OPTIONS` is not the
upper-casing of that key, which is `OPTİONS`. -/
theorem collectMethods_not_toUpper_of_key :
    collectMethods ["opt\u0130ons".toList] = ["OPTIONS".toList] ∧
      toUpper "opt\u0130ons".toList = "OPT\u0130ONS".toList ∧
      ¬ (∀ m ∈ collectMethods ["opt\u0130ons".toList],
          ∃ k ∈ ["opt\u0130ons".toList], validMethods (toLower k) = true ∧ m = toUpper k) := by
  decide

/-- C4, amended: each method emitted for a path item is the upper-casing of the
lower-casing of a key whose lower-casing is in the set of the eight method
names (and of the key itself when the key is ASCII), so it is one of GET, POST,
PUT, DELETE, PATCH, HEAD, OPTIONS, TRACE; a key whose lower-casing is outside
the set adds nothing; and each of the keys `Get`, `GET`, `get` gives `GET`. -/
theorem collectMethods_spec (pathItem : List Str) :
    (∀ m : Str, m ∈ collectMethods pathItem ↔
      ∃ k ∈ pathItem, toLower k ∈ validMethodKeys ∧ m = toUpper (toLower k)) ∧
      (∀ k : Str, (∀ c ∈ k, c.toNat < 128) → toUpper (toLower k) = toUpper k) ∧
      (∀ m ∈ collectMethods pathItem, m ∈ upperMethods) ∧
      (∀ k : Str, toLower k ∉ validMethodKeys → ∀ before after : List Str,
        collectMethods (before ++ k :: after) = collectMethods (before ++ after)) ∧
      collectMethods ["Get".toList] = ["GET".toList] ∧
      collectMethods ["GET".toList] = ["GET".toList] ∧
      collectMethods ["get".toList] = ["GET".toList] ∧
      collectMethods ["parameters".toList, "summary".toList] = [] := by
  refine ⟨?_, ?_, ?_, ?_, by decide, by decide, by decide, by decide⟩
  · intro m
    rw [collectMethods_eq, mem_methodsOf]
    simp [validMethods]
  · intro k hk
    simp only [toUpper, toLower, List.map_map]
    apply List.map_congr_left
    intro c hc
    exact toLowerRune_ascii c (hk c hc)
  · intro m hm
    rw [collectMethods_eq, mem_methodsOf] at hm
    obtain ⟨k, _, hv, rfl⟩ := hm
    exact toUpper_valid_mem _ hv
  · intro k hk before after
    have hv : validMethods (toLower k) = false := by simpa [validMethods] using hk
    simp [collectMethods_eq, methodsOf, hv]

/-- C4, amended, at the path item with the keys `Get` and `summary`. -/
theorem collectMethods_spec_witness :
    "GET".toList ∈ collectMethods ["Get".toList, "summary".toList] ∧
      collectMethods ["Get".toList, "summary".toList] = collectMethods ["Get".toList] ∧
      toUpper (toLower "Get".toList) = toUpper "Get".toList :=
  ⟨((collectMethods_spec ["Get".toList, "summary".toList]).1 "GET".toList).mpr
      ⟨"Get".toList, by decide, by decide, by decide⟩,
   (collectMethods_spec ["Get".toList, "summary".toList]).2.2.2.1 "summary".toList (by decide)
      ["Get".toList] [],
   (collectMethods_spec ["Get".toList, "summary".toList]).2.1 "Get".toList (by decide)⟩

/-- C5, as stated, fails: the distinct keys `get` and `GET` under one path give
a route whose methods list holds `GET` twice. -/
theorem deriveRoutes_duplicate_method :
    (["get".toList, "GET".toList] : List Str).Nodup ∧
      deriveRoutes [("/a".toList, ["get".toList, "GET".toList])] =
        some [Route.mk "/a".toList "/a".toList ["GET".toList, "GET".toList]] ∧
      ¬ (["GET".toList, "GET".toList] : List Str).Nodup := by
  decide

theorem methodsOf_eq_keys (keys : List Str) :
    methodsOf keys =
      (keys.filter (fun k => decide (toLower k ∈ lowerMethods))).map
        (fun k => toUpper (toLower k)) := by
  induction keys with
  | nil => rfl
  | cons k ks ih =>
    have hk : validMethods (toLower k) = decide (toLower k ∈ lowerMethods) := rfl
    unfold methodsOf at ih ⊢
    simp only [List.map_cons, List.filter_cons, hk]
    by_cases h : toLower k ∈ lowerMethods
    · simp only [h, decide_True, if_true, List.map_cons, ih]
    · simp only [h, decide_False, Bool.false_eq_true, if_false, ih]

theorem count_methods_keys (keys : List Str) (m : Str) :
    ((keys.filter (fun k => decide (toLower k ∈ lowerMethods))).map
        (fun k => toUpper (toLower k))).count m =
      keys.countP (fun k => decide (toLower k ∈ lowerMethods ∧ toUpper (toLower k) = m)) := by
  induction keys with
  | nil => rfl
  | cons k ks ih =>
    by_cases h : toLower k ∈ lowerMethods
    · by_cases hm : toUpper (toLower k) = m
      · simp [List.filter_cons, List.countP_cons, h, hm, ih]
      · simp [List.filter_cons, List.countP_cons, List.count_cons, h, hm, ih]
    · simp [List.filter_cons, List.countP_cons, h, ih]

theorem methodsOf_nodup_iff (keys : List Str) :
    (methodsOf keys).Nodup ↔
      ((keys.map toLower).filter (fun l => decide (l ∈ lowerMethods))).Nodup := by
  have hinj : ∀ a ∈ (keys.map toLower).filter validMethods,
      ∀ b ∈ (keys.map toLower).filter validMethods, toUpper a = toUpper b → a = b := by
    intro a ha b hb hab
    exact toUpper_valid_inj a b (List.mem_filter.mp ha).2 (List.mem_filter.mp hb).2 hab
  show (((keys.map toLower).filter validMethods).map toUpper).Nodup ↔
    ((keys.map toLower).filter validMethods).Nodup
  exact ⟨List.Nodup.of_map _, fun h => List.Nodup.map_on hinj h⟩

/-- C5, amended: the methods list of a derived route holds one entry per key of
the path item whose lower-casing is one of the eight method names, in key order,
so a method name occurs in it as many times as there are such keys giving it;
no method name occurs twice if and only if no two recognised keys of the path
item have the same lower-casing. -/
theorem deriveRoutes_methods_nodup (paths : Paths) :
    ∃ routes, deriveRoutes paths = some routes ∧
      ∀ r ∈ routes, ∃ e ∈ paths, r.Path = e.1 ∧
        r.Methods =
          (e.2.filter (fun k => decide (toLower k ∈ lowerMethods))).map
            (fun k => toUpper (toLower k)) ∧
        (∀ m : Str, r.Methods.count m =
          e.2.countP (fun k => decide (toLower k ∈ lowerMethods ∧ toUpper (toLower k) = m))) ∧
        (r.Methods.Nodup ↔
          ((e.2.map toLower).filter (fun l => decide (l ∈ lowerMethods))).Nodup) := by
  refine ⟨_, deriveRoutes_eq paths, ?_⟩
  intro r hr
  obtain ⟨e, he, hre⟩ := List.mem_filterMap.mp hr
  unfold routeOf at hre
  split at hre
  · exact absurd hre (by simp)
  · simp only [Option.some.injEq] at hre
    subst hre
    refine ⟨e, he, rfl, methodsOf_eq_keys e.2, ?_, methodsOf_nodup_iff e.2⟩
    intro m
    show (methodsOf e.2).count m = _
    rw [methodsOf_eq_keys, count_methods_keys]

/-- C5, amended, at the path `/a` with the keys `Summary`, `summary` and `get`:
two keys have the same lower-casing, neither is recognised, and the methods
list has no repetition. -/
theorem deriveRoutes_methods_nodup_witness :
    ∃ routes,
      deriveRoutes [("/a".toList, ["Summary".toList, "summary".toList, "get".toList])] =
        some routes ∧
      ∀ r ∈ routes, r.Methods.Nodup := by
  obtain ⟨routes, h1, h2⟩ := deriveRoutes_methods_nodup
    [("/a".toList, ["Summary".toList, "summary".toList, "get".toList])]
  refine ⟨routes, h1, ?_⟩
  intro r hr
  obtain ⟨e, he, _, _, _, h3⟩ := h2 r hr
  simp only [List.mem_singleton] at he
  subst he
  exact h3.mpr (by decide)

/-! ## Independence of the enumeration order: claim C9 -/

theorem methodsOf_perm (ks ls : List Str) (h : ks.Perm ls) :
    (methodsOf ks).Perm (methodsOf ls) :=
  ((h.map toLower).filter _).map toUpper

theorem filterMap_routeOf_forall₂ (ps qs : Paths)
    (h : List.Forall₂ (fun a b => a.1 = b.1 ∧ a.2.Perm b.2) ps qs) :
    List.Forall₂
      (fun a b => a.Path = b.Path ∧ a.GinPath = b.GinPath ∧ a.Methods.Perm b.Methods)
      (ps.filterMap routeOf) (qs.filterMap routeOf) := by
  induction h with
  | nil => exact List.Forall₂.nil
  | @cons a b as bs hab _ ih =>
    obtain ⟨h1, h2⟩ := hab
    have hm := methodsOf_perm a.2 b.2 h2
    by_cases ha : methodsOf a.2 = []
    · have hb : methodsOf b.2 = [] := by
        rw [ha] at hm
        exact List.Perm.eq_nil hm.symm
      simpa [List.filterMap_cons, routeOf, ha, hb] using ih
    · have hb : methodsOf b.2 ≠ [] := by
        intro hb
        rw [hb] at hm
        exact ha (List.Perm.eq_nil hm)
      simp only [List.filterMap_cons, routeOf, ha, hb, if_false]
      exact List.Forall₂.cons ⟨h1, by rw [h1], hm⟩ ih

theorem registrations_forall₂ (rs ss : List Route)
    (h : List.Forall₂
      (fun a b => a.Path = b.Path ∧ a.GinPath = b.GinPath ∧ a.Methods.Perm b.Methods) rs ss) :
    (registrations rs).Perm (registrations ss) := by
  induction h with
  | nil => exact List.Perm.refl _
  | @cons a b as bs hab _ ih =>
    obtain ⟨_, h2, h3⟩ := hab
    simp only [registrations, List.flatMap_cons] at ih ⊢
    refine List.Perm.append ?_ ih
    rw [h2]
    exact h3.map _

/-- C9: for two enumerations of one input structure (the path keys in any two
orders, the method keys of each path in any two orders) route derivation
returns two route lists that agree up to reordering, route by route with the
same path, the same translated path and a reordering of the methods, and the
registrations (method, translated path) of one list are a reordering of the
registrations of the other. -/
theorem deriveRoutes_order_independent (ps qs : Paths) (h : SameInput ps qs) :
    ∃ rs ss, deriveRoutes ps = some rs ∧ deriveRoutes qs = some ss ∧
      SameRoutes rs ss ∧ (registrations rs).Perm (registrations ss) := by
  obtain ⟨ps', hf, hp⟩ := h
  refine ⟨_, _, deriveRoutes_eq ps, deriveRoutes_eq qs, ?_, ?_⟩
  · exact ⟨_, filterMap_routeOf_forall₂ ps ps' hf, hp.filterMap routeOf⟩
  · exact (registrations_forall₂ _ _ (filterMap_routeOf_forall₂ ps ps' hf)).trans
      ((hp.filterMap routeOf).flatMap_right _)

/-- C9 at the two enumerations of the structure with the paths `/pets/{petId}`
(keys `get`, `post`) and `/health` (key `get`). -/
theorem deriveRoutes_order_independent_witness :
    ∃ rs ss,
      deriveRoutes [("/pets/\x7bpetId\x7d".toList, ["get".toList, "post".toList]),
        ("/health".toList, ["get".toList])] = some rs ∧
      deriveRoutes [("/health".toList, ["get".toList]),
        ("/pets/\x7bpetId\x7d".toList, ["post".toList, "get".toList])] = some ss ∧
      SameRoutes rs ss ∧ (registrations rs).Perm (registrations ss) :=
  deriveRoutes_order_independent _ _
    ⟨[("/pets/\x7bpetId\x7d".toList, ["post".toList, "get".toList]),
        ("/health".toList, ["get".toList])],
      List.Forall₂.cons ⟨rfl, List.Perm.swap _ _ _⟩
        (List.Forall₂.cons ⟨rfl, List.Perm.refl _⟩ List.Forall₂.nil),
      List.Perm.swap _ _ _⟩

/-! ## Rendering: claim C2 -/

set_option maxRecDepth 100000 in
theorem trimSpaceRight_tplHeader : trimSpaceRight tplHeader = prologue := by
  decide

theorem execRoutes_tpl (routes : List Route) :
    execRoutes
      [ RouteNode.text (trimSpaceRight "\n\t".toList),
        RouteNode.setPath,
        RouteNode.text (trimSpaceRight "\n\t".toList),
        RouteNode.rangeMethods
          [ MethodNode.text "\n\tr.".toList,
            MethodNode.dot,
            MethodNode.text "(basePath + \"".toList,
            MethodNode.pathVar,
            MethodNode.text (trimSpaceRight "\", gin.WrapH(ogenHandler))\n\t".toList) ],
        RouteNode.text (trimSpaceRight "\n".toList) ] routes =
      some (((registrations routes).map registrationText).flatten) := by
  have h1 : trimSpaceRight "\n\t".toList = [] := by decide
  have h2 : trimSpaceRight "\n".toList = [] := by decide
  have h3 : trimSpaceRight "\", gin.WrapH(ogenHandler))\n\t".toList =
      "\", gin.WrapH(ogenHandler))".toList := by decide
  rw [h1, h2, h3]
  induction routes with
  | nil => rfl
  | cons r rs ih =>
    rw [execRoutes, ih]
    simp [execRouteNodes, execMethodNodes, registrations, registrationText, List.map_map,
      Function.comp_def]

theorem render_text (pkg : Str) (routes : List Route) :
    render (TemplateData.mk pkg routes) =
      some ("package ".toList ++ pkg ++ prologue ++
        ((registrations routes).map registrationText).flatten ++ "\n\x7d\n".toList) := by
  unfold render tpl
  simp only [execTopNodes, execRoutes_tpl, trimSpaceRight_tplHeader, Option.bind_eq_bind,
    Option.some_bind, List.append_nil, List.append_assoc]

set_option maxRecDepth 100000 in
/-- C2: for every package name and every route list, the rendered text is
`package`, the package name, the text up to the end of the base-path
normalisation block, then one registration statement per registration (per
route and method, in route order and within a route in method order) and
nothing else, then the closing brace of `RegisterRoutes`; the number of
statements is the sum of the lengths of the routes' method lists; the routes
`/pets/:petId` (GET, POST) and `/health` (GET) with package `server` render
the file shown. -/
theorem render_registrations (pkg : Str) (routes : List Route) :
    render (TemplateData.mk pkg routes) =
        some ("package ".toList ++ pkg ++ prologue ++
          ((registrations routes).map registrationText).flatten ++ "\n\x7d\n".toList) ∧
      registrations routes = routes.flatMap (fun r => r.Methods.map (fun m => (m, r.GinPath))) ∧
      ((registrations routes).map registrationText).length =
        (routes.map (fun r => r.Methods.length)).sum ∧
      render (TemplateData.mk "server".toList
        [Route.mk "/pets/\x7bpetId\x7d".toList "/pets/:petId".toList
            ["GET".toList, "POST".toList],
          Route.mk "/health".toList "/health".toList ["GET".toList]]) =
        some ("package server".toList ++ prologue ++
          ("\n\tr.GET(basePath + \"/pets/:petId\", gin.WrapH(ogenHandler))" ++
           "\n\tr.POST(basePath + \"/pets/:petId\", gin.WrapH(ogenHandler))" ++
           "\n\tr.GET(basePath + \"/health\", gin.WrapH(ogenHandler))" ++
           "\n\x7d\n").toList) := by
  refine ⟨render_text pkg routes, rfl, ?_, ?_⟩
  · rw [List.length_map]
    induction routes with
    | nil => rfl
    | cons r rs ih =>
      simp only [registrations, List.flatMap_cons, List.length_append, List.length_map,
        List.map_cons, List.sum_cons] at ih ⊢
      rw [ih]
  · rw [render_text]
    decide

/-! ## Base-path normalisation: claim C6 -/

theorem trimRightSlash_eq_rdropWhile (s : Str) :
    trimRightSlash s = s.rdropWhile (fun c => decide (c = '/')) := rfl

theorem normaliseBasePath_cons (c : Char) (t : Str) :
    normaliseBasePath (c :: t) =
      some (trimRightSlash (if c ≠ '/' then '/' :: c :: t else c :: t)) := by
  simp [normaliseBasePath, index_zero_cons]

theorem normaliseBasePath_trimmed (s : Str) (hs : s.head? = some '/') :
    normaliseBasePath (trimRightSlash s) = some (trimRightSlash s) := by
  cases h : trimRightSlash s with
  | nil => simp [normaliseBasePath]
  | cons c t =>
    have hpre : (c :: t) <+: s := by
      rw [← h, trimRightSlash_eq_rdropWhile]
      exact List.rdropWhile_prefix _ _
    obtain ⟨u, hu⟩ := hpre
    have hc : c = '/' := by
      rw [← hu] at hs
      simpa using hs
    rw [normaliseBasePath_cons]
    simp only [hc, ne_eq, not_true_eq_false, if_false]
    rw [← hc, ← h, trimRightSlash_eq_rdropWhile, trimRightSlash_eq_rdropWhile,
      List.rdropWhile_idempotent]

/-- C6: the base-path normalisation of the generated `RegisterRoutes` is
idempotent: it returns on every string, and applied to its own result it
returns that result again; `api` and `/api/` both give `/api`, and the empty
string gives the empty string. -/
theorem normaliseBasePath_idempotent (b : Str) :
    (∃ r, normaliseBasePath b = some r ∧ normaliseBasePath r = some r) ∧
      (normaliseBasePath b).bind normaliseBasePath = normaliseBasePath b ∧
      normaliseBasePath "api".toList = some "/api".toList ∧
      normaliseBasePath "/api/".toList = some "/api".toList ∧
      normaliseBasePath [] = some [] := by
  have h : ∃ r, normaliseBasePath b = some r ∧ normaliseBasePath r = some r := by
    cases b with
    | nil => exact ⟨[], by simp [normaliseBasePath], by simp [normaliseBasePath]⟩
    | cons c t =>
      refine ⟨_, normaliseBasePath_cons c t, ?_⟩
      apply normaliseBasePath_trimmed
      by_cases hc : c = '/'
      · simp [hc]
      · simp [hc]
  refine ⟨h, ?_, by decide, by decide, by decide⟩
  obtain ⟨r, h1, h2⟩ := h
  rw [h1, Option.some_bind, h2]

/-! ## Failures and the output destination: claim C7 -/

theorem execute_fst (env : Env) (emit : Str → Effect) (d : TemplateData) :
    (execute env emit d).1 = Except.ok () ∨ (execute env emit d).1 = Except.error Failure.execute := by
  unfold execute
  rw [show d = TemplateData.mk d.PackageName d.Routes from rfl, (render_text _ _)]
  cases env.writeLimit with
  | none => exact Or.inl rfl
  | some n =>
    simp only
    split
    · exact Or.inr rfl
    · exact Or.inl rfl

theorem run_of_unmarshal_error (env : Env) (data : Str) (f : Failure)
    (h0 : env.inputFile ≠ []) (h1 : env.readFile env.inputFile = some data)
    (h2 : unmarshal env (toLower (filepathExt env.inputFile)) data = Except.error f) :
    run env = (Except.error f, []) := by
  unfold run
  rw [if_neg h0]
  simp only [h1, h2]

theorem run_of_unmarshal_ok (env : Env) (data : Str) (paths : Paths)
    (h0 : env.inputFile ≠ []) (h1 : env.readFile env.inputFile = some data)
    (h2 : unmarshal env (toLower (filepathExt env.inputFile)) data = Except.ok paths) :
    run env =
      if env.outputFile ≠ [] then
        if env.mkdirAllOk = false then
          (Except.error Failure.mkdir, [Effect.mkdirAll env.outputFile])
        else if env.createOk = false then
          (Except.error Failure.create,
            [Effect.mkdirAll env.outputFile, Effect.create env.outputFile])
        else
          ((execute env (Effect.writeFile env.outputFile)
              (TemplateData.mk env.packageName (paths.filterMap routeOf))).1,
            Effect.mkdirAll env.outputFile :: Effect.create env.outputFile ::
              (execute env (Effect.writeFile env.outputFile)
                (TemplateData.mk env.packageName (paths.filterMap routeOf))).2)
      else execute env Effect.writeStdout
        (TemplateData.mk env.packageName (paths.filterMap routeOf)) := by
  unfold run
  rw [if_neg h0]
  simp only [h1, h2, deriveRoutes_eq]

theorem run_late_failure (env : Env) (data : Str) (paths : Paths) (f : Failure)
    (h0 : env.inputFile ≠ []) (h1 : env.readFile env.inputFile = some data)
    (h2 : unmarshal env (toLower (filepathExt env.inputFile)) data = Except.ok paths)
    (hf : (run env).1 = Except.error f) :
    f = Failure.mkdir ∨ f = Failure.create ∨
      (f = Failure.execute ∧ (env.outputFile ≠ [] → Effect.create env.outputFile ∈ (run env).2)) := by
  rw [run_of_unmarshal_ok env data paths h0 h1 h2] at hf ⊢
  by_cases ho : env.outputFile ≠ []
  · rw [if_pos ho] at hf ⊢
    by_cases hm : env.mkdirAllOk = false
    · rw [if_pos hm] at hf
      simp only [Except.error.injEq] at hf
      exact Or.inl hf.symm
    · rw [if_neg hm] at hf ⊢
      by_cases hc : env.createOk = false
      · rw [if_pos hc] at hf
        simp only [Except.error.injEq] at hf
        exact Or.inr (Or.inl hf.symm)
      · rw [if_neg hc] at hf ⊢
        simp only at hf
        rcases execute_fst env (Effect.writeFile env.outputFile)
            (TemplateData.mk env.packageName (paths.filterMap routeOf)) with h | h
        · rw [h] at hf
          exact absurd hf (by simp)
        · rw [h] at hf
          simp only [Except.error.injEq] at hf
          exact Or.inr (Or.inr ⟨hf.symm, fun _ => by simp⟩)
  · rw [if_neg ho] at hf
    rcases execute_fst env Effect.writeStdout
        (TemplateData.mk env.packageName (paths.filterMap routeOf)) with h | h
    · rw [h] at hf
      exact absurd hf (by simp)
    · rw [h] at hf
      simp only [Except.error.injEq] at hf
      exact Or.inr (Or.inr ⟨hf.symm, fun h => absurd h ho⟩)

set_option maxRecDepth 100000 in
/-- C7, as stated, fails: in the run `envWriteFails` the template execution
fails (a write fails after 12 characters), and by then the directory and the
output file have been created and the file holds a truncated text. -/
theorem run_execute_failure_after_create :
    run envWriteFails =
      (Except.error Failure.execute,
        [Effect.mkdirAll "out.go".toList, Effect.create "out.go".toList,
          Effect.writeFile "out.go".toList "package main".toList]) := by
  rfl

/-- C7, amended: a failure before rendering leaves the output destination
untouched: when the -file argument is missing, the input cannot be read, the
extension (lower-cased) is none of .yaml, .yml, .json, or the bytes fail to
parse, the run ends with the matching error and no call was issued on the
output destination.  The output file is created before the template is
executed: a run that ends with a failed execution and has an -out file has
created that file. -/
theorem run_early_failure_no_output (env : Env) :
    (env.inputFile = [] → run env = (Except.error Failure.usage, [])) ∧
      (env.inputFile ≠ [] → env.readFile env.inputFile = none →
        run env = (Except.error Failure.read, [])) ∧
      (∀ data, env.inputFile ≠ [] → env.readFile env.inputFile = some data →
        toLower (filepathExt env.inputFile) ∉
          [".yaml".toList, ".yml".toList, ".json".toList] →
        run env =
          (Except.error (Failure.unsupportedExt (toLower (filepathExt env.inputFile))), [])) ∧
      (∀ data, env.inputFile ≠ [] → env.readFile env.inputFile = some data →
        toLower (filepathExt env.inputFile) ∈ [".yaml".toList, ".yml".toList] →
        env.yamlUnmarshal data = none → run env = (Except.error Failure.parse, [])) ∧
      (∀ data, env.inputFile ≠ [] → env.readFile env.inputFile = some data →
        toLower (filepathExt env.inputFile) = ".json".toList →
        env.jsonUnmarshal data = none → run env = (Except.error Failure.parse, [])) ∧
      (∀ f, (run env).1 = Except.error f →
        (f = Failure.usage ∨ f = Failure.read ∨ (∃ e, f = Failure.unsupportedExt e) ∨
          f = Failure.parse) → (run env).2 = []) ∧
      ((run env).1 = Except.error Failure.execute → env.outputFile ≠ [] →
        Effect.create env.outputFile ∈ (run env).2) := by
  refine ⟨?_, ?_, ?_, ?_, ?_, ?_, ?_⟩
  · intro h
    simp [run, h]
  · intro h0 h1
    simp [run, h0, h1]
  · intro data h0 h1 h2
    apply run_of_unmarshal_error env data _ h0 h1
    simp only [List.mem_cons, List.mem_singleton, List.not_mem_nil, or_false, not_or] at h2
    unfold unmarshal
    rw [if_neg (not_or.mpr ⟨h2.1, h2.2.1⟩), if_neg h2.2.2]
  · intro data h0 h1 h2 h3
    apply run_of_unmarshal_error env data _ h0 h1
    simp only [List.mem_cons, List.mem_singleton, List.not_mem_nil, or_false] at h2
    unfold unmarshal
    rw [if_pos h2, h3]
  · intro data h0 h1 h2 h3
    apply run_of_unmarshal_error env data _ h0 h1
    have h4 : ¬ (toLower (filepathExt env.inputFile) = ".yaml".toList ∨
        toLower (filepathExt env.inputFile) = ".yml".toList) := by
      rw [h2]
      decide
    unfold unmarshal
    rw [if_neg h4, if_pos h2, h3]
  · intro f hf hcase
    by_cases h0 : env.inputFile = []
    · simp [run, h0]
    · cases h1 : env.readFile env.inputFile with
      | none => simp [run, h0, h1]
      | some data =>
        cases h2 : unmarshal env (toLower (filepathExt env.inputFile)) data with
        | error g => rw [run_of_unmarshal_error env data g h0 h1 h2]
        | ok paths =>
          exfalso
          rcases run_late_failure env data paths f h0 h1 h2 hf with h | h | ⟨h, _⟩ <;>
            subst h <;> simp at hcase
  · intro hf ho
    by_cases h0 : env.inputFile = []
    · simp [run, h0] at hf
    · cases h1 : env.readFile env.inputFile with
      | none => simp [run, h0, h1] at hf
      | some data =>
        cases h2 : unmarshal env (toLower (filepathExt env.inputFile)) data with
        | error g =>
          rw [run_of_unmarshal_error env data g h0 h1 h2] at hf
          simp only [Except.error.injEq] at hf
          subst hf
          unfold unmarshal at h2
          split at h2
          · split at h2 <;> simp at h2
          · split at h2
            · split at h2 <;> simp at h2
            · simp at h2
        | ok paths =>
          rcases run_late_failure env data paths _ h0 h1 h2 hf with h | h | ⟨_, h⟩
          · exact absurd h (by simp)
          · exact absurd h (by simp)
          · exact h ho

/-- C7, amended, at the run `envTxt`: the extension `.txt` is not supported,
the run ends with that error and no call was issued on the output
destination. -/
theorem run_early_failure_no_output_witness :
    run envTxt = (Except.error (Failure.unsupportedExt ".txt".toList), []) :=
  (run_early_failure_no_output envTxt).2.2.1 [] (by decide) rfl (by decide)

end OgenGinwrap
